import Mathlib

/-! # Verification of the CatBoost AXP explainer

Shallow embedding of
`src/graft-loss/cohort_analysis/ffa_analysis/catboost_axp_explainer2.py`:
the symbolic rule extraction (non-oblivious tree traversal), the condition
registry, rule matching, minimal-hitting-set explanations, batch
processing and the feature-attribution aggregator.

Numeric feature values and split borders are embedded as integers (the
source compares them only with order relations, which the embedding
preserves); exact rational arithmetic replaces floating point in the
aggregator, and the two fields computed with a floating-point square root
(`stability`, `position_std`) are not embedded.  The external pysat
`Hitman` solver is modelled by its documented contract: in the `sorted`
mode used by the source, `get` returns a smallest hitting set of the
registered sets (or `None` when none exists) and `enumerate` yields the
inclusion-minimal hitting sets in size order. -/

/-- Append an element to an accumulator unless it is already present.
Models insertion into an insertion-ordered Python dict or set. -/
def insert_new {α : Type} [DecidableEq α] (acc : List α) (a : α) : List α :=
  if a ∈ acc then acc else acc ++ [a]

/-- Distinct elements of a list, keeping the first occurrence of each
(the iteration order of a Python dict or of `dict.fromkeys`). -/
def first_dedup {α : Type} [DecidableEq α] (l : List α) : List α :=
  l.foldl insert_new []

/-- Arithmetic mean of a list of naturals as a rational; `0` for the empty
list (the source guards `np.mean(xs) if xs else 0`). -/
def qmean (l : List Nat) : ℚ :=
  if l = [] then 0 else (l.sum : ℚ) / (l.length : ℚ)

/-- Insert a string into a sorted list (ordering step of Python `sorted`). -/
def insert_sorted (a : String) : List String → List String
  | [] => [a]
  | b :: rest => if a < b then a :: b :: rest else b :: insert_sorted a rest

/-- Sort a list of strings (Python `sorted`, used to normalise an AXP
before de-duplication). -/
def insertion_sort : List String → List String
  | [] => []
  | a :: rest => insert_sorted a (insertion_sort rest)

/-- A split condition triple `(flat feature index, border, direction)`.
Direction `0` encodes `value <= border`, direction `1` encodes
`value > border`. -/
abbrev Cond := Nat × Int × Nat

/-- A decision-tree node of the exported model JSON: a leaf carrying its
`leaf_value`, or an internal node carrying its `split_condition`
(`float_feature_index` and `border`) and two children. -/
inductive NodeJson where
  | leaf (leaf_value : Int)
  | split (float_feature_index : Nat) (border : Int)
      (left_child right_child : NodeJson)
  deriving Repr, DecidableEq

/-- The parts of the exported CatBoost model JSON consumed by
`fit_from_model_json`: the float-feature table
(`features_info.float_features`, as pairs of `flat_feature_index` and
`feature_id`), whether the JSON contains an `oblivious_trees` key, and the
optional list of non-oblivious trees (each tree contributing its `nodes`
root). -/
structure ModelJson where
  float_features : List (Nat × String)
  has_oblivious_trees : Bool
  non_oblivious_trees : Option (List NodeJson)
  deriving Repr, DecidableEq

/-- State of a `CatBoostSymbolicExplainer`: the feature-name table, the
condition registry in both directions, the rule set, and the literal id
generator (`itertools.count(1)`, created once in the constructor and never
reset afterwards). -/
structure Explainer where
  feature_names : List (Nat × String)
  condition_id_map : List (Cond × Nat)
  id_condition_map : List (Nat × Cond)
  rule_clauses : List (List Nat)
  rule_predictions : List Nat
  id_gen : Nat
  deriving Repr, DecidableEq

/-- A freshly constructed explainer (the constructor). -/
def Explainer.init : Explainer :=
  { feature_names := []
    condition_id_map := []
    id_condition_map := []
    rule_clauses := []
    rule_predictions := []
    id_gen := 1 }

namespace Explainer

/-- Models `_get_condition_literal`: intern a condition triple, assigning
the next generator id on first sight and reusing the stored id
afterwards. -/
def get_condition_literal (st : Explainer) (key : Cond) : Explainer × Nat :=
  match (st.condition_id_map.find? (fun p => decide (p.1 = key))).map (·.2) with
  | some lit => (st, lit)
  | none =>
      ({ st with
          condition_id_map := st.condition_id_map ++ [(key, st.id_gen)]
          id_condition_map := st.id_condition_map ++ [(st.id_gen, key)]
          id_gen := st.id_gen + 1 },
       st.id_gen)

/-- Models the clause-building comprehension
`[self._get_condition_literal(f, t, d) for (f, t, d) in conditions]`,
threading the registry state left to right. -/
def intern_conditions (st : Explainer) : List Cond → Explainer × List Nat
  | [] => (st, [])
  | c :: rest =>
      let r1 := st.get_condition_literal c
      let r2 := r1.1.intern_conditions rest
      (r2.1, r1.2 :: r2.2)

/-- Models `_traverse_non_oblivious_tree`: depth-first traversal emitting,
at every leaf, one rule whose clause interns the accumulated path
conditions and whose prediction is `1` when the leaf value is positive,
else `0`. -/
def traverse_non_oblivious_tree (st : Explainer) (node : NodeJson)
    (path : List Nat) (conditions : List Cond) : Explainer :=
  match node with
  | .leaf v =>
      let pred : Nat := if v > 0 then 1 else 0
      let r := st.intern_conditions conditions
      { r.1 with
          rule_clauses := r.1.rule_clauses ++ [r.2]
          rule_predictions := r.1.rule_predictions ++ [pred] }
  | .split f border l r =>
      let stL := st.traverse_non_oblivious_tree l (path ++ [0])
        (conditions ++ [(f, border, 0)])
      stL.traverse_non_oblivious_tree r (path ++ [1])
        (conditions ++ [(f, border, 1)])

/-- Models `fit_from_model_json`: clear the rule set and the registry
(but not the id generator), rebuild the feature table, reject oblivious
or missing tree lists, and traverse every non-oblivious tree.  The source
raises `ValueError` with longer hints; the embedding keeps the leading
message text. -/
def fit_from_model_json (st : Explainer) (m : ModelJson) :
    Except String Explainer :=
  let st0 : Explainer :=
    { st with
        rule_clauses := []
        rule_predictions := []
        condition_id_map := []
        id_condition_map := []
        feature_names := m.float_features }
  if m.has_oblivious_trees then
    .error "Model was trained using oblivious trees."
  else
    match m.non_oblivious_trees with
    | none => .error "Model JSON missing non_oblivious_trees."
    | some trees =>
        .ok (trees.foldl (fun s t => s.traverse_non_oblivious_tree t [] []) st0)

/-- Lookup of `self.id_condition_map[lit]` as an optional value (the
source raises `KeyError` when the literal is unknown; parsed states always
resolve). -/
def resolve (st : Explainer) (lit : Nat) : Option Cond :=
  (st.id_condition_map.find? (fun p => decide (p.1 = lit))).map (·.2)

/-- Models `_literal_condition_holds` (and the identical inline check in
`_satisfied_rules`): the literal's condition evaluated on an instance,
`value <= threshold` for direction `0` and `value > threshold`
otherwise. -/
def literal_cond (st : Explainer) (x : Nat → Int) (lit : Nat) : Bool :=
  match st.resolve lit with
  | some (f, t, d) => if d = 0 then decide (x f ≤ t) else decide (x f > t)
  | none => false

/-- Models `_satisfied_rules`: indices of rules whose prediction equals the
target class and whose clause literals all hold on the instance. -/
def satisfied_rules (st : Explainer) (x : Nat → Int) (target_class : Nat) :
    List Nat :=
  (List.range st.rule_clauses.length).filter (fun idx =>
    decide (st.rule_predictions.getD idx 0 = target_class) &&
      (st.rule_clauses.getD idx []).all (st.literal_cond x))

/-- Models `_satisfied_clauses_for_instance`: the clauses (rather than the
indices) of the rules matched by the instance for the target class. -/
def satisfied_clauses_for_instance (st : Explainer) (x : Nat → Int)
    (target_class : Nat) : List (List Nat) :=
  (List.range st.rule_clauses.length).filterMap (fun idx =>
    if decide (st.rule_predictions.getD idx 0 = target_class) &&
        (st.rule_clauses.getD idx []).all (st.literal_cond x) then
      some (st.rule_clauses.getD idx [])
    else none)

end Explainer

/-- Does `s` intersect every clause of `clauses`?  (The defining property
of a hitting set.) -/
def hits_all (s : List Nat) (clauses : List (List Nat)) : Bool :=
  clauses.all (fun cl => cl.any (fun l => decide (l ∈ s)))

/-- Search for a hitting set of size `k`, `k+1`, ... among the sublists of
`univ`, with explicit fuel.  Searching sizes in increasing order yields a
smallest hitting set first. -/
def min_hit_from (clauses : List (List Nat)) (univ : List Nat) :
    Nat → Nat → Option (List Nat)
  | _, 0 => none
  | k, fuel + 1 =>
      match (List.sublistsLen k univ).find? (fun s => hits_all s clauses) with
      | some s => some s
      | none => min_hit_from clauses univ (k + 1) fuel

/-- Models `Hitman(solver="m22").get()` on the registered sets: a smallest
hitting set drawn from the union of the sets, or `none` when no hitting
set exists (pysat returns `None` then, e.g. when some set is empty). -/
def hitman_get (sets : List (List Nat)) : Option (List Nat) :=
  let univ := sets.flatten.dedup
  min_hit_from sets univ 0 (univ.length + 1)

/-- Is `s` an inclusion-minimal hitting set (removing any element unhits
some clause)? -/
def minimal_hit (s : List Nat) (clauses : List (List Nat)) : Bool :=
  s.all (fun l => !hits_all (s.erase l) clauses)

/-- Models `Hitman(solver="m22", htype="sorted").enumerate()`: all
inclusion-minimal hitting sets of the registered sets, listed in size
order. -/
def hitman_enumerate (sets : List (List Nat)) : List (List Nat) :=
  let univ := sets.flatten.dedup
  ((List.range (univ.length + 1)).map (fun k =>
    (List.sublistsLen k univ).filter
      (fun s => hits_all s sets && minimal_hit s sets))).flatten

namespace Explainer

/-- Models `_compute_axp`: hit every matched rule's clause and ask the
solver for one smallest hitting set. -/
def compute_axp (st : Explainer) (rule_ids : List Nat) : Option (List Nat) :=
  hitman_get (rule_ids.map (fun ridx => st.rule_clauses.getD ridx []))

/-- Models `explain_literals`: the empty list when no rule matches,
otherwise the solver's minimal AXP over the matched clauses. -/
def explain_literals (st : Explainer) (x : Nat → Int)
    (predicted_class : Nat) : Option (List Nat) :=
  let matched := st.satisfied_rules x predicted_class
  if matched = [] then some [] else st.compute_axp matched

/-- Models `_literal_to_text`: render a literal as
`<feature> <= <threshold>` or `<feature> > <threshold>` using the feature
name table. -/
def literal_to_text (st : Explainer) (lit : Nat) : String :=
  match st.resolve lit with
  | some (f, t, d) =>
      let feat := ((st.feature_names.find? (fun p => decide (p.1 = f))).map
        (·.2)).getD ""
      feat ++ (if d = 0 then " <= " else " > ") ++ toString t
  | none => ""

/-- Models `explain_instance`: raise `ValueError` when no predicted class
is supplied, otherwise render the AXP literals (iterating `None` — the
no-hitting-set case — would raise `TypeError` in the source). -/
def explain_instance (st : Explainer) (x : Nat → Int)
    (predicted_class : Option Nat) : Except String (List String) :=
  match predicted_class with
  | none => .error "You must provide the predicted class."
  | some c =>
      match st.explain_literals x c with
      | some lits => .ok (lits.map st.literal_to_text)
      | none => .error "TypeError: NoneType object is not iterable"

/-- Helper for `explain_dataset`: explain each row in turn, pairing it
with its running index and predicted class. -/
def explain_dataset_aux (st : Explainer) :
    Nat → List ((Nat → Int) × Nat) →
    Except String (List (Nat × Nat × List String))
  | _, [] => .ok []
  | i, (x, yhat) :: rest => do
      let axp ← st.explain_instance x (some yhat)
      let tail ← st.explain_dataset_aux (i + 1) rest
      .ok ((i, yhat, axp) :: tail)

/-- Models `explain_dataset`: raise `ValueError` when no predictions are
supplied, otherwise explain every row against its predicted class. -/
def explain_dataset (st : Explainer) (X : List (Nat → Int))
    (predictions : Option (List Nat)) :
    Except String (List (Nat × Nat × List String)) :=
  match predictions with
  | none => .error "Please provide the predicted class labels for each instance."
  | some preds => st.explain_dataset_aux 0 (X.zip preds)

end Explainer

namespace Explainer

/-- Models `_enumerate_axps`: register every clause with a fresh `Hitman`
and enumerate all minimal hitting sets. -/
def enumerate_axps (clauses : List (List Nat)) : List (List Nat) :=
  hitman_enumerate clauses

/-- Per-instance loop body of `_batch_compute_axps`: render each
enumerated AXP, normalise it by sorting, and keep only AXPs whose
normalised form was not seen before for this instance. -/
def batch_axps_for_instance (st : Explainer) (i : Nat) :
    List (List Nat) → List (List String) → List (Nat × List String)
  | [], _ => []
  | axp :: rest, seen =>
      let readable := axp.map st.literal_to_text
      let key := insertion_sort readable
      if key ∈ seen then st.batch_axps_for_instance i rest seen
      else (i, readable) :: st.batch_axps_for_instance i rest (key :: seen)

/-- Index-threading loop of `_batch_compute_axps`: an instance with no
satisfied clause is skipped (`continue`) and contributes no record. -/
def batch_compute_axps_aux (st : Explainer) (target_class : Nat) :
    Nat → List (Nat → Int) → List (Nat × List String)
  | _, [] => []
  | i, x :: rest =>
      let clauses := st.satisfied_clauses_for_instance x target_class
      (if clauses = [] then []
       else st.batch_axps_for_instance i (enumerate_axps clauses) []) ++
        st.batch_compute_axps_aux target_class (i + 1) rest

/-- Models `_batch_compute_axps` of `CatBoostSymbolicExplainer`: one
record `(instance index, rendered AXP)` per de-duplicated enumerated AXP
of each explainable instance. -/
def batch_compute_axps (st : Explainer) (X : List (Nat → Int))
    (target_class : Nat) : List (Nat × List String) :=
  st.batch_compute_axps_aux target_class 0 X

end Explainer

/-- Models `condition.split()[0]`: the feature token of a rendered
condition string, i.e. its characters before the first space. -/
def feature_of (cond : String) : String :=
  String.mk (cond.toList.takeWhile (fun c => decide (c ≠ ' ')))

namespace CatBoostAXPExplainer

/-- Models `_compute_feature_metrics` of `CatBoostAXPExplainer`
(the first class in the source file).  Input records pair
`instance_idx` with the rendered `conditions` of one AXP; the output
triples are `(feature, support, coverage)` where support counts condition
occurrences and coverage is `len(instances) / len(axps)` — the number of
distinct instances divided by the number of explanation records.
The `conditions` list of the source output is dropped here. -/
def compute_feature_metrics (axps : List (Nat × List String)) :
    List (String × Nat × ℚ) :=
  let feats := first_dedup ((axps.map (fun a => a.2.map feature_of)).flatten)
  feats.map (fun f =>
    let support := ((axps.map (fun a =>
      a.2.countP (fun c => decide (feature_of c = f)))).sum)
    let instances := ((axps.filter (fun a =>
      a.2.any (fun c => decide (feature_of c = f)))).map (·.1)).dedup
    (f, support, (instances.length : ℚ) / (axps.length : ℚ)))

end CatBoostAXPExplainer

/-- Number of distinct instances whose records contain at least one
condition on feature `f` (the specification's reading of coverage). -/
def distinct_instances_with (axps : List (Nat × List String)) (f : String) :
    Nat :=
  (((axps.filter (fun r => r.2.any (fun c => decide (feature_of c = f)))).map
    (·.1)).dedup).length

namespace CatBoostSymbolicExplainer

/-- Models the `instance_groups` defaultdict of
`_compute_feature_metrics`: records grouped by instance index, keys in
first-occurrence order, each instance's AXPs in record order. -/
def instance_groups (axps : List (Nat × List String)) :
    List (Nat × List (List String)) :=
  (first_dedup (axps.map (·.1))).map (fun i =>
    (i, (axps.filter (fun r => decide (r.1 = i))).map (·.2)))

/-- Models `unique_features` of one instance group: the distinct features
appearing in any of the group's AXPs. -/
def group_features (g : Nat × List (List String)) : List String :=
  first_dedup ((g.2.map (fun axp => axp.map feature_of)).flatten)

/-- Models `essential_feats`: the features present in every AXP of the
group (`set.intersection(*feature_sets)`), empty for an (unreachable)
empty group. -/
def essential_features (g : Nat × List (List String)) : List String :=
  if g.2.isEmpty then []
  else (group_features g).filter (fun f =>
    g.2.all (fun axp => axp.any (fun c => decide (feature_of c = f))))

/-- Models `support_counter[f]`: incremented once per instance group whose
unique features contain `f`. -/
def support_count (groups : List (Nat × List (List String))) (f : String) :
    Nat :=
  groups.countP (fun g => decide (f ∈ group_features g))

/-- Models `len(coverage_map[f])`: the set of instance ids of groups whose
unique features contain `f`. -/
def coverage_count (groups : List (Nat × List (List String))) (f : String) :
    Nat :=
  (((groups.filter (fun g => decide (f ∈ group_features g))).map
    (·.1)).dedup).length

/-- Models `essentiality[f]`: incremented once per group where `f` is
essential. -/
def essentiality_count (groups : List (Nat × List (List String)))
    (f : String) : Nat :=
  groups.countP (fun g => decide (f ∈ essential_features g))

/-- Models `contrastiveness[f]`: groups containing `f` in which some AXP
omits `f`. -/
def contrastive_count (groups : List (Nat × List (List String)))
    (f : String) : Nat :=
  groups.countP (fun g =>
    decide (f ∈ group_features g) &&
      g.2.any (fun axp => !axp.any (fun c => decide (feature_of c = f))))

/-- Models `specificity_map[f]`: the lengths of the AXPs containing `f`,
collected over the groups whose unique features contain `f`. -/
def axp_lengths_for (groups : List (Nat × List (List String)))
    (f : String) : List Nat :=
  ((groups.filter (fun g => decide (f ∈ group_features g))).map (fun g =>
    (g.2.filter (fun axp =>
      axp.any (fun c => decide (feature_of c = f)))).map
        List.length)).flatten

/-- Models `position_map[f]`: the index of the first condition on `f`
inside each AXP containing `f`. -/
def positions_for (groups : List (Nat × List (List String)))
    (f : String) : List Nat :=
  ((groups.filter (fun g => decide (f ∈ group_features g))).map (fun g =>
    (g.2.filter (fun axp =>
      axp.any (fun c => decide (feature_of c = f)))).map (fun axp =>
        axp.findIdx (fun c => decide (feature_of c = f))))).flatten

/-- Models `all_features = set(support_counter.keys())`.  Python iterates
a set in unspecified order; the embedding fixes first-occurrence order
(all theorems below are membership-based, not order-based). -/
def features_list (axps : List (Nat × List String)) : List String :=
  first_dedup (((instance_groups axps).map group_features).flatten)

/-- Models `sum(support_counter.values())`. -/
def total_support (axps : List (Nat × List String)) : Nat :=
  ((features_list axps).map (support_count (instance_groups axps))).sum

/-- One row of the per-feature metrics table.  The source fields
`stability` and `position_std` (floating-point standard deviations) are
not embedded; `essentiality_frac` embeds the source's
`essentiality_ratio`. -/
structure FeatureMetric where
  feature : String
  support : Nat
  coverage : Nat
  specificity : ℚ
  essentiality_frac : ℚ
  contrastive_instances : Nat
  relative_importance : ℚ
  avg_position : ℚ
  deriving Repr, DecidableEq, Inhabited

/-- Models `_compute_feature_metrics` of `CatBoostSymbolicExplainer`:
group records by instance, then emit one metric row per feature. -/
def compute_feature_metrics (axps : List (Nat × List String)) :
    List FeatureMetric :=
  let groups := instance_groups axps
  let instance_count := groups.length
  (features_list axps).map (fun f =>
    { feature := f
      support := support_count groups f
      coverage := coverage_count groups f
      specificity := qmean (axp_lengths_for groups f)
      essentiality_frac :=
        if instance_count > 0 then
          (essentiality_count groups f : ℚ) / (instance_count : ℚ)
        else 0
      contrastive_instances := contrastive_count groups f
      relative_importance :=
        (support_count groups f : ℚ) / (total_support axps : ℚ)
      avg_position := qmean (positions_for groups f) })

end CatBoostSymbolicExplainer

namespace Explainer

/-- Models `compute_feature_attribution` of `CatBoostSymbolicExplainer`:
for each class label (default `[0, 1]`), restrict the dataset to the rows
predicted as that label, batch-compute the AXPs and aggregate them. -/
def compute_feature_attribution (st : Explainer) (X : List (Nat → Int))
    (predictions : List Nat) (class_labels : Option (List Nat)) :
    List (Nat × List CatBoostSymbolicExplainer.FeatureMetric) :=
  (class_labels.getD [0, 1]).map (fun label =>
    let X_class := ((X.zip predictions).filter (fun p =>
      decide (p.2 = label))).map (·.1)
    (label,
     CatBoostSymbolicExplainer.compute_feature_metrics
       (st.batch_compute_axps X_class label)))

/-- The runtime error raised by `process_large_dataset`: its loop body
calls `compute_feature_attribution(batch_X)` without the required
`predictions` argument. -/
def missing_predictions_error : String :=
  "TypeError: compute_feature_attribution missing 1 required positional argument: predictions"

/-- Models `process_large_dataset`: on a non-empty dataset the first loop
iteration calls `compute_feature_attribution(batch_X)` with its required
`predictions` parameter missing, so Python raises `TypeError` before any
result is produced; on an empty dataset the loop body never runs and the
empty result dict is returned. -/
def process_large_dataset (st : Explainer) (X : List (Nat → Int))
    (batch_size : Nat) :
    Except String (List (Nat × List CatBoostSymbolicExplainer.FeatureMetric)) :=
  match X, batch_size with
  | [], _ => .ok []
  | _ :: _, _ => .error missing_predictions_error

end Explainer

/-- Leaf values of a tree in depth-first (left before right) order. -/
def leaf_vals : NodeJson → List Int
  | .leaf v => [v]
  | .split _ _ l r => leaf_vals l ++ leaf_vals r

/-- Depths of the leaves of a tree in depth-first order. -/
def leaf_depths : NodeJson → List Nat
  | .leaf _ => [0]
  | .split _ _ l r =>
      (leaf_depths l).map (· + 1) ++ (leaf_depths r).map (· + 1)

/-- The condition list accumulated on the path to each leaf, in
depth-first order, starting from the prefix `conds`. -/
def leaf_cond_lists : NodeJson → List Cond → List (List Cond)
  | .leaf _, conds => [conds]
  | .split f border l r, conds =>
      leaf_cond_lists l (conds ++ [(f, border, 0)]) ++
        leaf_cond_lists r (conds ++ [(f, border, 1)])

/-- The distinct condition triples of an ensemble in the order the
traversal first interns them: leaf by leaf, path conditions left to
right. -/
def dfs_conds (trees : List NodeJson) : List Cond :=
  (((trees.map (fun t => leaf_cond_lists t [])).flatten).flatten).foldl
    insert_new []

/-- Well-formedness of the condition registry relative to the id-generator
position `base` at the start of the current parse cycle: the two maps are
mutual inverses, the assigned ids are consecutive from `base`, and the
generator sits one past the last assigned id. -/
def RegistryInv (st : Explainer) (base : Nat) : Prop :=
  st.id_condition_map = st.condition_id_map.map (fun p => (p.2, p.1)) ∧
  st.condition_id_map.map (·.2) =
    List.range' base st.condition_id_map.length ∧
  st.id_gen = base + st.condition_id_map.length

/-- A one-split tree on feature `0` with border `5`: the left leaf value
`-2` predicts class `0`, the right leaf value `3` predicts class `1`. -/
def treeA : NodeJson := .split 0 5 (.leaf (-2)) (.leaf 3)

/-- A model JSON holding `treeA` and one float feature named `A`. -/
def modelA : ModelJson :=
  { float_features := [(0, "A")]
    has_oblivious_trees := false
    non_oblivious_trees := some [treeA] }

/-- The explainer state produced by parsing `modelA` from a fresh
explainer. -/
def stA : Explainer :=
  { feature_names := [(0, "A")]
    condition_id_map := [((0, 5, 0), 1), ((0, 5, 1), 2)]
    id_condition_map := [(1, (0, 5, 0)), (2, (0, 5, 1))]
    rule_clauses := [[1], [2]]
    rule_predictions := [0, 1]
    id_gen := 3 }

/-- A second model JSON: a one-split tree on feature `9` with border `7`,
used to exercise a re-parse. -/
def modelB : ModelJson :=
  { float_features := [(9, "B")]
    has_oblivious_trees := false
    non_oblivious_trees := some [.split 9 7 (.leaf (-1)) (.leaf 1)] }

/-- The explainer state produced by re-parsing `modelB` on top of `stA`:
the registry is rebuilt but the id generator keeps counting from `3`. -/
def stB : Explainer :=
  { feature_names := [(9, "B")]
    condition_id_map := [((9, 7, 0), 3), ((9, 7, 1), 4)]
    id_condition_map := [(3, (9, 7, 0)), (4, (9, 7, 1))]
    rule_clauses := [[3], [4]]
    rule_predictions := [0, 1]
    id_gen := 5 }

/-- A model JSON whose only tree is a zero-depth tree (a bare leaf with
positive value, hence predicting class `1`). -/
def modelLeaf : ModelJson :=
  { float_features := []
    has_oblivious_trees := false
    non_oblivious_trees := some [.leaf 1] }

/-- The explainer state produced by parsing `modelLeaf`: one rule with an
empty clause predicting class `1`. -/
def stLeaf : Explainer :=
  { feature_names := []
    condition_id_map := []
    id_condition_map := []
    rule_clauses := [[]]
    rule_predictions := [1]
    id_gen := 1 }

/-- A model JSON flagged as containing oblivious trees. -/
def modelOblivious : ModelJson :=
  { float_features := [(0, "A")]
    has_oblivious_trees := true
    non_oblivious_trees := none }

/-- A model JSON with no oblivious trees but also no non-oblivious tree
list. -/
def modelMissingTrees : ModelJson :=
  { float_features := [(0, "A")]
    has_oblivious_trees := false
    non_oblivious_trees := none }

/-- A constant instance whose every feature value is `3`. -/
def x3 : Nat → Int := fun _ => 3

/-- A constant instance whose every feature value is `7`. -/
def x7 : Nat → Int := fun _ => 7

/-- A concrete explanation collection: instance `0` has one AXP on
feature `A`, instance `1` has one AXP on features `A` and `B`. -/
def axpsW : List (Nat × List String) :=
  [(0, ["A > 5"]), (1, ["A > 5", "B <= 2"])]

/-- A concrete explanation collection with two records for the same
instance. -/
def axpsDup : List (Nat × List String) :=
  [(0, ["A <= 1"]), (0, ["A <= 1"])]

/-- A non-empty explanation collection whose only record carries an empty
explanation. -/
def axpsEmpty : List (Nat × List String) :=
  [(0, ([] : List String))]

/-- The head of a non-empty list (with a default) is a member of it. -/
theorem headD_mem_of_ne_nil {α : Type} (l : List α) (d : α) (h : l ≠ []) :
    l.headD d ∈ l := by
  cases l with
  | nil => exact absurd rfl h
  | cons a rest => simp

/-- Characterisation of `literal_cond` in terms of the resolved condition
triple. -/
theorem literal_cond_iff (st : Explainer) (x : Nat → Int) (lit : Nat) :
    st.literal_cond x lit = true ↔
      ∃ f t d, st.resolve lit = some (f, t, d) ∧
        ((d = 0 ∧ x f ≤ t) ∨ (d ≠ 0 ∧ x f > t)) := by
  unfold Explainer.literal_cond
  cases h : st.resolve lit with
  | none => simp
  | some ftd =>
      obtain ⟨f, t, d⟩ := ftd
      constructor
      · intro hb
        refine ⟨f, t, d, rfl, ?_⟩
        by_cases hd : d = 0
        · simp [hd] at hb
          exact Or.inl ⟨hd, hb⟩
        · simp [hd] at hb
          exact Or.inr ⟨hd, hb⟩
      · rintro ⟨f', t', d', heq, hcond⟩
        obtain ⟨rfl, rfl, rfl⟩ : f' = f ∧ t' = t ∧ d' = d := by
          simpa [and_assoc, eq_comm] using heq
        rcases hcond with ⟨hd, hle⟩ | ⟨hd, hlt⟩
        · simp [hd, hle]
        · simp [hd, hlt]

/-- C2: a rule index is in `_satisfied_rules` exactly when the rule's
prediction equals the target class and every literal of its clause
resolves to a triple `(f, t, d)` whose condition holds on the instance
(`x f ≤ t` for direction `0`, `x f > t` otherwise). -/
theorem c2_satisfied_rules_iff (st0 : Explainer) (m : ModelJson)
    (st : Explainer) (x : Nat → Int) (c idx : Nat)
    (hfit : st0.fit_from_model_json m = .ok st) :
    idx ∈ st.satisfied_rules x c ↔
      idx < st.rule_clauses.length ∧
        st.rule_predictions.getD idx 0 = c ∧
        ∀ lit ∈ st.rule_clauses.getD idx [], ∃ f t d,
          st.resolve lit = some (f, t, d) ∧
            ((d = 0 ∧ x f ≤ t) ∨ (d ≠ 0 ∧ x f > t)) := by
  unfold Explainer.satisfied_rules
  simp [List.mem_filter, List.mem_range, List.all_eq_true, literal_cond_iff,
    and_assoc]

/-- Witness for C2 at a parsed state: rule `0` of `stA` is matched by the
all-threes instance for class `0`. -/
theorem c2_satisfied_rules_iff_witness :
    0 ∈ stA.satisfied_rules x3 0 ↔
      0 < stA.rule_clauses.length ∧
        stA.rule_predictions.getD 0 0 = 0 ∧
        ∀ lit ∈ stA.rule_clauses.getD 0 [], ∃ f t d,
          stA.resolve lit = some (f, t, d) ∧
            ((d = 0 ∧ x3 f ≤ t) ∨ (d ≠ 0 ∧ x3 f > t)) :=
  c2_satisfied_rules_iff Explainer.init modelA stA x3 0 0 rfl

/-- C7: parsing rejects oblivious-tree models, and models whose
non-oblivious tree list is absent, with explicit errors; no rule set is
returned. -/
theorem c7_fit_rejects_unsupported (st : Explainer) (m : ModelJson) :
    (m.has_oblivious_trees = true →
      st.fit_from_model_json m =
        .error "Model was trained using oblivious trees.") ∧
    (m.has_oblivious_trees = false → m.non_oblivious_trees = none →
      st.fit_from_model_json m =
        .error "Model JSON missing non_oblivious_trees.") := by
  constructor
  · intro h
    simp [Explainer.fit_from_model_json, h]
  · intro h1 h2
    simp [Explainer.fit_from_model_json, h1, h2]

/-- Witness for C7: a fresh explainer rejects the concrete oblivious model
and the concrete model missing its tree list. -/
theorem c7_fit_rejects_unsupported_witness :
    Explainer.init.fit_from_model_json modelOblivious =
      .error "Model was trained using oblivious trees." ∧
    Explainer.init.fit_from_model_json modelMissingTrees =
      .error "Model JSON missing non_oblivious_trees." :=
  ⟨(c7_fit_rejects_unsupported Explainer.init modelOblivious).1 rfl,
   (c7_fit_rejects_unsupported Explainer.init modelMissingTrees).2 rfl rfl⟩

/-- C10: `explain_instance` without a predicted class and
`explain_dataset` without predictions both raise `ValueError`
immediately, for every state and input, before computing anything. -/
theorem c10_missing_class_raises (st : Explainer) (x : Nat → Int)
    (X : List (Nat → Int)) :
    st.explain_instance x none =
      .error "You must provide the predicted class." ∧
    st.explain_dataset X none =
      .error "Please provide the predicted class labels for each instance." :=
  ⟨rfl, rfl⟩

/-- C6 (code bug): on every non-empty dataset, `process_large_dataset`
fails with a `TypeError` — its loop calls `compute_feature_attribution`
without the required `predictions` argument — so it cannot reproduce the
single-pass aggregate of `compute_feature_attribution`. -/
theorem c6_process_large_dataset_raises (st : Explainer) (x : Nat → Int)
    (X : List (Nat → Int)) (batch_size : Nat) :
    st.process_large_dataset (x :: X) batch_size =
      .error Explainer.missing_predictions_error := rfl

/-- Interning one condition leaves the rule set (and everything except
the registry) untouched. -/
theorem get_condition_literal_rules (st : Explainer) (key : Cond) :
    (st.get_condition_literal key).1.rule_clauses = st.rule_clauses ∧
    (st.get_condition_literal key).1.rule_predictions = st.rule_predictions := by
  unfold Explainer.get_condition_literal
  cases (st.condition_id_map.find? (fun p => decide (p.1 = key))).map (·.2) <;>
    simp

/-- Interning a condition list leaves the rule set untouched. -/
theorem intern_conditions_rules (conds : List Cond) : ∀ st : Explainer,
    (st.intern_conditions conds).1.rule_clauses = st.rule_clauses ∧
    (st.intern_conditions conds).1.rule_predictions = st.rule_predictions := by
  induction conds with
  | nil => intro st; simp [Explainer.intern_conditions]
  | cons c rest ih =>
      intro st
      simp only [Explainer.intern_conditions]
      exact ⟨((ih _).1).trans (get_condition_literal_rules st c).1,
             ((ih _).2).trans (get_condition_literal_rules st c).2⟩

/-- The clause built by interning has one literal per condition. -/
theorem intern_conditions_length (conds : List Cond) : ∀ st : Explainer,
    (st.intern_conditions conds).2.length = conds.length := by
  induction conds with
  | nil => intro st; simp [Explainer.intern_conditions]
  | cons c rest ih =>
      intro st
      simp only [Explainer.intern_conditions, List.length_cons]
      exact congrArg (· + 1) (ih _)

/-- Shifting a depth list by one level and then by a prefix length equals
shifting by the extended prefix length. -/
theorem map_add_one_add (dl : List Nat) (n : Nat) :
    (dl.map (· + 1)).map (· + n) = dl.map (· + (n + 1)) := by
  rw [List.map_map]
  apply List.map_congr_left
  intro a _
  simp only [Function.comp_apply]
  omega

/-- The traversal appends, in depth-first order, one prediction (the sign
of the leaf value) and one clause (of length equal to the leaf's depth
plus the accumulated prefix) per leaf. -/
theorem traverse_rules (node : NodeJson) : ∀ (st : Explainer)
    (path : List Nat) (conds : List Cond),
    (st.traverse_non_oblivious_tree node path conds).rule_predictions =
      st.rule_predictions ++
        (leaf_vals node).map (fun v => if v > 0 then 1 else 0) ∧
    (st.traverse_non_oblivious_tree node path conds).rule_clauses.map
        List.length =
      st.rule_clauses.map List.length ++
        (leaf_depths node).map (· + conds.length) := by
  induction node with
  | leaf v =>
      intro st path conds
      simp [Explainer.traverse_non_oblivious_tree, leaf_vals, leaf_depths,
        (intern_conditions_rules conds st).1,
        (intern_conditions_rules conds st).2,
        intern_conditions_length conds st]
  | split f b l r ihl ihr =>
      intro st path conds
      simp only [Explainer.traverse_non_oblivious_tree, leaf_vals,
        leaf_depths]
      constructor
      · rw [(ihr _ _ _).1, (ihl _ _ _).1, List.map_append, List.append_assoc]
      · rw [(ihr _ _ _).2, (ihl _ _ _).2, List.map_append, List.append_assoc,
          List.length_append, List.length_append]
        simp only [List.length_cons, List.length_nil, Nat.zero_add]
        rw [map_add_one_add, map_add_one_add]

/-- Folding the traversal over a tree list appends all trees' predictions
and clause lengths in order. -/
theorem foldl_traverse_rules (trees : List NodeJson) : ∀ st : Explainer,
    (trees.foldl (fun s t => s.traverse_non_oblivious_tree t [] [])
        st).rule_predictions =
      st.rule_predictions ++
        ((trees.map leaf_vals).flatten).map (fun v => if v > 0 then 1 else 0) ∧
    (trees.foldl (fun s t => s.traverse_non_oblivious_tree t [] [])
        st).rule_clauses.map List.length =
      st.rule_clauses.map List.length ++ (trees.map leaf_depths).flatten := by
  induction trees with
  | nil => intro st; simp
  | cons t ts ih =>
      intro st
      simp only [List.foldl_cons, List.map_cons, List.flatten_cons]
      constructor
      · rw [(ih _).1, (traverse_rules t st [] []).1, List.map_append,
          List.append_assoc]
      · rw [(ih _).2, (traverse_rules t st [] []).2]
        simp [List.append_assoc]

/-- A tree has as many leaf depths as leaf values. -/
theorem leaf_depths_length (t : NodeJson) :
    (leaf_depths t).length = (leaf_vals t).length := by
  induction t with
  | leaf v => rfl
  | split f b l r ihl ihr => simp [leaf_depths, leaf_vals, ihl, ihr]

/-- Only a bare-leaf (zero-depth) tree has a leaf at depth `0`. -/
theorem zero_mem_leaf_depths (t : NodeJson) (h : 0 ∈ leaf_depths t) :
    ∃ v, t = NodeJson.leaf v := by
  cases t with
  | leaf v => exact ⟨v, rfl⟩
  | split f b l r =>
      simp only [leaf_depths, List.mem_append, List.mem_map] at h
      rcases h with ⟨a, _, ha⟩ | ⟨a, _, ha⟩ <;> omega

/-- A condition-to-id lookup fails exactly when the key is not registered. -/
theorem find?_key_none_iff (l : List (Cond × Nat)) (key : Cond) :
    l.find? (fun p => decide (p.1 = key)) = none ↔ key ∉ l.map (·.1) := by
  rw [List.find?_eq_none]
  constructor
  · intro h hkey
    rw [List.mem_map] at hkey
    obtain ⟨p, hp, hpe⟩ := hkey
    exact h p hp (decide_eq_true hpe)
  · intro hnot p hp
    simp only [decide_eq_true_eq]
    intro he
    exact hnot (he ▸ List.mem_map_of_mem (·.1) hp)

/-- Interning preserves the registry invariant and records the key as a
first occurrence. -/
theorem get_condition_literal_registry (st : Explainer) (key : Cond)
    (b : Nat) (h : RegistryInv st b) :
    RegistryInv (st.get_condition_literal key).1 b ∧
    (st.get_condition_literal key).1.condition_id_map.map (·.1) =
      insert_new (st.condition_id_map.map (·.1)) key := by
  obtain ⟨hmaps, hids, hgen⟩ := h
  unfold Explainer.get_condition_literal
  cases hfind : (st.condition_id_map.find? (fun p => decide (p.1 = key))) with
  | some p =>
      have hmem : key ∈ st.condition_id_map.map (·.1) := by
        have hp := List.find?_some hfind
        have hpmem := List.mem_of_find?_eq_some hfind
        simp only [decide_eq_true_eq] at hp
        exact hp ▸ List.mem_map_of_mem (·.1) hpmem
      simp only [Option.map_some']
      exact ⟨⟨hmaps, hids, hgen⟩, by rw [insert_new, if_pos hmem]⟩
  | none =>
      have hnot : key ∉ st.condition_id_map.map (·.1) :=
        (find?_key_none_iff _ key).mp hfind
      simp only [Option.map_none']
      refine ⟨⟨?_, ?_, ?_⟩, ?_⟩
      · simp only [List.map_append, hmaps, List.map_cons, List.map_nil, hgen]
      · simp only [List.map_append, hids, List.map_cons, List.map_nil,
          List.length_append, List.length_cons, List.length_nil, hgen]
        have hc : List.range' b (st.condition_id_map.length + 1) =
            List.range' b st.condition_id_map.length ++
              [b + 1 * st.condition_id_map.length] :=
          List.range'_concat b st.condition_id_map.length
        simp only [Nat.one_mul] at hc
        exact hc.symm
      · simp only [List.length_append, List.length_cons, List.length_nil,
          hgen]
        omega
      · simp only [List.map_append, List.map_cons, List.map_nil]
        rw [insert_new, if_neg hnot]

/-- Interning a condition list preserves the invariant and folds the keys
in, in order of first occurrence. -/
theorem intern_conditions_registry (conds : List Cond) :
    ∀ (st : Explainer) (b : Nat), RegistryInv st b →
    RegistryInv (st.intern_conditions conds).1 b ∧
    (st.intern_conditions conds).1.condition_id_map.map (·.1) =
      conds.foldl insert_new (st.condition_id_map.map (·.1)) := by
  induction conds with
  | nil => intro st b h; exact ⟨h, rfl⟩
  | cons c rest ih =>
      intro st b h
      simp only [Explainer.intern_conditions, List.foldl_cons]
      obtain ⟨h1, hkeys1⟩ := get_condition_literal_registry st c b h
      obtain ⟨h2, hkeys2⟩ := ih _ b h1
      exact ⟨h2, by rw [hkeys2, hkeys1]⟩

/-- The traversal preserves the registry invariant and folds in every
condition encountered on every root-to-leaf path, depth first. -/
theorem traverse_registry (node : NodeJson) : ∀ (st : Explainer)
    (path : List Nat) (conds : List Cond) (b : Nat), RegistryInv st b →
    RegistryInv (st.traverse_non_oblivious_tree node path conds) b ∧
    (st.traverse_non_oblivious_tree node path conds).condition_id_map.map
        (·.1) =
      ((leaf_cond_lists node conds).flatten).foldl insert_new
        (st.condition_id_map.map (·.1)) := by
  induction node with
  | leaf v =>
      intro st path conds b h
      obtain ⟨h1, hkeys⟩ := intern_conditions_registry conds st b h
      obtain ⟨hmaps, hids, hgen⟩ := h1
      simp only [Explainer.traverse_non_oblivious_tree, leaf_cond_lists,
        List.flatten_cons, List.flatten_nil, List.append_nil]
      exact ⟨⟨hmaps, hids, hgen⟩, hkeys⟩
  | split f border l r ihl ihr =>
      intro st path conds b h
      simp only [Explainer.traverse_non_oblivious_tree, leaf_cond_lists,
        List.flatten_append, List.foldl_append]
      obtain ⟨h1, hkeys1⟩ := ihl st (path ++ [0]) (conds ++ [(f, border, 0)]) b h
      obtain ⟨h2, hkeys2⟩ := ihr _ (path ++ [1]) (conds ++ [(f, border, 1)]) b h1
      exact ⟨h2, by rw [hkeys2, hkeys1]⟩

/-- Folding the traversal over the tree list preserves the invariant and
accumulates all trees' conditions. -/
theorem foldl_traverse_registry (trees : List NodeJson) :
    ∀ (st : Explainer) (b : Nat), RegistryInv st b →
    RegistryInv (trees.foldl
      (fun s t => s.traverse_non_oblivious_tree t [] []) st) b ∧
    (trees.foldl (fun s t => s.traverse_non_oblivious_tree t [] [])
        st).condition_id_map.map (·.1) =
      (((trees.map (fun t => leaf_cond_lists t [])).flatten).flatten).foldl
        insert_new (st.condition_id_map.map (·.1)) := by
  induction trees with
  | nil => intro st b h; exact ⟨h, rfl⟩
  | cons t ts ih =>
      intro st b h
      simp only [List.foldl_cons, List.map_cons, List.flatten_cons,
        List.flatten_append, List.foldl_append]
      obtain ⟨h1, hkeys1⟩ := traverse_registry t st [] [] b h
      obtain ⟨h2, hkeys2⟩ := ih _ b h1
      exact ⟨h2, by rw [hkeys2, hkeys1]⟩

/-- Re-interning an already-registered condition triple leaves the
explainer unchanged (the stored literal id is reused). -/
theorem get_condition_literal_mem_eq (st : Explainer) (key : Cond)
    (h : key ∈ st.condition_id_map.map (·.1)) :
    (st.get_condition_literal key).1 = st := by
  unfold Explainer.get_condition_literal
  rw [List.mem_map] at h
  obtain ⟨p, hp, hpe⟩ := h
  have hsome : (st.condition_id_map.find? (fun q => decide (q.1 = key))).isSome := by
    rw [List.find?_isSome]
    exact ⟨p, hp, decide_eq_true hpe⟩
  obtain ⟨q, hq⟩ := Option.isSome_iff_exists.mp hsome
  simp [hq]

/-- C4 (amended): after any successful parse, the registry contains
exactly the current ensemble's condition triples (in first-occurrence
order), the two maps are mutual inverses, re-interning a registered
triple leaves the state unchanged, and the assigned literal ids are
consecutive starting from the id-generator position at the start of the
parse — which is `1` only for a fresh explainer's first parse, since
`fit_from_model_json` never resets the generator. -/
theorem c4_registry_rebuilt (st0 : Explainer) (m : ModelJson)
    (trees : List NodeJson) (st : Explainer)
    (htrees : m.non_oblivious_trees = some trees)
    (hfit : st0.fit_from_model_json m = .ok st) :
    st.condition_id_map.map (·.1) = dfs_conds trees ∧
    st.condition_id_map.map (·.2) =
      List.range' st0.id_gen (dfs_conds trees).length ∧
    st.id_condition_map = st.condition_id_map.map (fun p => (p.2, p.1)) ∧
    (∀ key ∈ st.condition_id_map.map (·.1),
      (st.get_condition_literal key).1 = st) := by
  unfold Explainer.fit_from_model_json at hfit
  by_cases hob : m.has_oblivious_trees
  · simp [hob] at hfit
  · simp only [hob, Bool.false_eq_true, if_false, htrees] at hfit
    injection hfit with h
    subst h
    have hinv0 : RegistryInv
        { st0 with
            rule_clauses := []
            rule_predictions := []
            condition_id_map := []
            id_condition_map := []
            feature_names := m.float_features } st0.id_gen :=
      ⟨rfl, rfl, rfl⟩
    obtain ⟨⟨hmaps, hids, _⟩, hkeys⟩ :=
      foldl_traverse_registry trees _ st0.id_gen hinv0
    simp only [List.map_nil] at hkeys
    have hkeys2 : _ = dfs_conds trees := hkeys
    have hlen := congrArg List.length hkeys2
    rw [List.length_map] at hlen
    refine ⟨hkeys2, by rw [hids, hlen], hmaps, ?_⟩
    intro key hkey
    exact get_condition_literal_mem_eq _ key hkey

/-- Witness for C4 on the concrete first parse: the fresh explainer's
registry after parsing `modelA` holds exactly the two split conditions
with ids `1` and `2`. -/
theorem c4_registry_rebuilt_witness :
    stA.condition_id_map.map (·.1) = dfs_conds [treeA] ∧
    stA.condition_id_map.map (·.2) =
      List.range' Explainer.init.id_gen (dfs_conds [treeA]).length ∧
    stA.id_condition_map = stA.condition_id_map.map (fun p => (p.2, p.1)) ∧
    (∀ key ∈ stA.condition_id_map.map (·.1),
      (stA.get_condition_literal key).1 = stA) :=
  c4_registry_rebuilt Explainer.init modelA [treeA] stA rfl rfl

/-- Counterexample for C4 as stated: re-parsing `modelB` on top of the
state obtained from `modelA` yields a non-empty registry none of whose
literal ids is `1` — ids are not reassigned starting at `1` on a
re-parse, because the id generator is never reset. -/
theorem c4_reparse_ids_not_from_one :
    stA.fit_from_model_json modelB = .ok stB ∧
    stB.condition_id_map ≠ [] ∧
    (∀ p ∈ stB.condition_id_map, p.2 ≠ 1) :=
  ⟨rfl, by decide, by decide⟩

/-- A `filterMap` guarded by a boolean test is the `map` of the
`filter`. -/
theorem filterMap_if_eq_map_filter {α β : Type} (l : List α) (p : α → Bool)
    (g : α → β) :
    l.filterMap (fun a => if p a then some (g a) else none) =
      (l.filter p).map g := by
  induction l with
  | nil => rfl
  | cons a rest ih =>
      by_cases hp : p a = true <;>
        simp [List.filterMap_cons, List.filter_cons, hp, ih]

/-- The matched clauses are the clauses of the matched rule indices. -/
theorem satisfied_clauses_eq (st : Explainer) (x : Nat → Int) (c : Nat) :
    st.satisfied_clauses_for_instance x c =
      (st.satisfied_rules x c).map (fun i => st.rule_clauses.getD i []) := by
  unfold Explainer.satisfied_clauses_for_instance Explainer.satisfied_rules
  exact filterMap_if_eq_map_filter _ _ _

/-- Every record produced for one instance carries that instance's
index. -/
theorem batch_axps_for_instance_fst (st : Explainer) (i : Nat) :
    ∀ (sets : List (List Nat)) (seen : List (List String))
      (r : Nat × List String),
      r ∈ st.batch_axps_for_instance i sets seen → r.1 = i := by
  intro sets
  induction sets with
  | nil => intro seen r hr; simp [Explainer.batch_axps_for_instance] at hr
  | cons axp rest ih =>
      intro seen r hr
      simp only [Explainer.batch_axps_for_instance] at hr
      by_cases hk : insertion_sort (axp.map st.literal_to_text) ∈ seen
      · rw [if_pos hk] at hr
        exact ih _ r hr
      · rw [if_neg hk] at hr
        rcases List.mem_cons.mp hr with h | h
        · rw [h]
        · exact ih _ r h

/-- Every record of the batch loop comes from an instance at some offset
whose satisfied-clause list is non-empty. -/
theorem batch_compute_axps_aux_mem (st : Explainer) (c : Nat) :
    ∀ (xs : List (Nat → Int)) (j : Nat) (r : Nat × List String),
      r ∈ st.batch_compute_axps_aux c j xs →
      ∃ k x', xs[k]? = some x' ∧ r.1 = j + k ∧
        st.satisfied_clauses_for_instance x' c ≠ [] := by
  intro xs
  induction xs with
  | nil => intro j r hr; simp [Explainer.batch_compute_axps_aux] at hr
  | cons x rest ih =>
      intro j r hr
      simp only [Explainer.batch_compute_axps_aux, List.mem_append] at hr
      rcases hr with hr | hr
      · by_cases hcl : st.satisfied_clauses_for_instance x c = []
        · rw [if_pos hcl] at hr
          exact absurd hr (List.not_mem_nil r)
        · rw [if_neg hcl] at hr
          refine ⟨0, x, by simp, ?_, hcl⟩
          rw [batch_axps_for_instance_fst st j _ _ r hr]
          omega
      · obtain ⟨k, x', hk, hjk, hne⟩ := ih (j + 1) r hr
        refine ⟨k + 1, x', ?_, ?_, hne⟩
        · simpa using hk
        · omega

/-- C5 (amended): for an instance matching zero rules,
`explain_literals` returns the empty explanation, but
`_batch_compute_axps` emits no record at all for that instance — it is
dropped from the batch results rather than recorded as an empty
explanation. -/
theorem c5_unexplainable_instance (st : Explainer) (X : List (Nat → Int))
    (c i : Nat) (x : Nat → Int) (hx : X[i]? = some x)
    (hmatch : st.satisfied_rules x c = []) :
    st.explain_literals x c = some [] ∧
    ∀ r ∈ st.batch_compute_axps X c, r.1 ≠ i := by
  constructor
  · unfold Explainer.explain_literals
    simp [hmatch]
  · intro r hr hri
    obtain ⟨k, x', hk, hjk, hne⟩ :=
      batch_compute_axps_aux_mem st c X 0 r hr
    have hki : k = i := by omega
    subst hki
    rw [hx] at hk
    injection hk with hx'
    subst hx'
    apply hne
    rw [satisfied_clauses_eq, hmatch]
    rfl

/-- Witness for C5 on the concrete state: the all-threes instance matches
no class-1 rule of `stA`; it gets the empty explanation and no batch
record. -/
theorem c5_unexplainable_instance_witness :
    stA.explain_literals x3 1 = some [] ∧
    ∀ r ∈ stA.batch_compute_axps [x3] 1, r.1 ≠ 0 :=
  c5_unexplainable_instance stA [x3] 1 0 x3 rfl (by decide)

/-- Counterexample for C5 as stated: the all-threes instance matches zero
class-1 rules of `stA`, yet the batch results contain no record for it —
in particular no record with an empty explanation — because
`_batch_compute_axps` skips such instances with `continue`. -/
theorem c5_unexplainable_instance_cex :
    stA.satisfied_rules x3 1 = [] ∧
    ¬ ∃ r ∈ stA.batch_compute_axps [x3] 1, r.1 = 0 := by
  constructor
  · decide
  · have hbatch : stA.batch_compute_axps [x3] 1 = [] := by decide
    rintro ⟨r, hr, _⟩
    rw [hbatch] at hr
    exact absurd hr (List.not_mem_nil r)

/-- Membership form of the hitting-set test. -/
theorem hits_all_iff (s : List Nat) (clauses : List (List Nat)) :
    hits_all s clauses = true ↔ ∀ cl ∈ clauses, ∃ l ∈ cl, l ∈ s := by
  simp [hits_all, List.all_eq_true, List.any_eq_true]

/-- What a successful size-ascending search returns: a hitting sublist of
the universe whose size admits no smaller hitting sublist. -/
theorem min_hit_from_spec (clauses : List (List Nat)) (univ : List Nat) :
    ∀ (fuel k : Nat) (s : List Nat),
    min_hit_from clauses univ k fuel = some s →
    List.Sublist s univ ∧ hits_all s clauses = true ∧ k ≤ s.length ∧
    ∀ j, k ≤ j → j < s.length →
      ∀ t ∈ List.sublistsLen j univ, hits_all t clauses = false := by
  intro fuel
  induction fuel with
  | zero => intro k s h; simp [min_hit_from] at h
  | succ fuel ih =>
      intro k s h
      rw [min_hit_from] at h
      cases hfind : (List.sublistsLen k univ).find?
          (fun s => hits_all s clauses) with
      | some s' =>
          rw [hfind] at h
          injection h with h
          subst h
          have hmem := List.mem_of_find?_eq_some hfind
          have hhits := List.find?_some hfind
          rw [List.mem_sublistsLen] at hmem
          refine ⟨hmem.1, hhits, by omega, ?_⟩
          intro j hj1 hj2
          rw [hmem.2] at hj2
          omega
      | none =>
          rw [hfind] at h
          obtain ⟨hsub, hhits, hk, hmin⟩ := ih (k + 1) s h
          refine ⟨hsub, hhits, by omega, ?_⟩
          intro j hj1 hj2 t ht
          by_cases hjk : j = k
          · subst hjk
            simpa using List.find?_eq_none.mp hfind t ht
          · exact hmin j (by omega) hj2 t ht

/-- The size-ascending search succeeds as soon as some size within fuel
admits a hitting sublist. -/
theorem min_hit_from_isSome (clauses : List (List Nat)) (univ : List Nat) :
    ∀ (fuel k : Nat),
    (∃ j, k ≤ j ∧ j < k + fuel ∧
      ((List.sublistsLen j univ).find? (fun s => hits_all s clauses)).isSome) →
    (min_hit_from clauses univ k fuel).isSome := by
  intro fuel
  induction fuel with
  | zero =>
      intro k h
      obtain ⟨j, h1, h2, _⟩ := h
      omega
  | succ fuel ih =>
      intro k h
      obtain ⟨j, h1, h2, hj⟩ := h
      rw [min_hit_from]
      cases hfind : (List.sublistsLen k univ).find?
          (fun s => hits_all s clauses) with
      | some s => simp
      | none =>
          apply ih
          refine ⟨j, ?_, by omega, hj⟩
          rcases Nat.eq_or_lt_of_le h1 with rfl | hlt
          · rw [hfind] at hj
            simp at hj
          · omega

/-- Filtering a nodup universe by membership in one of its sublists
recovers the sublist. -/
theorem filter_mem_eq_of_sublist (s univ : List Nat)
    (hsub : List.Sublist s univ) (hnd : univ.Nodup) :
    univ.filter (fun y => decide (y ∈ s)) = s := by
  induction hsub with
  | slnil => rfl
  | cons a hsub ih =>
      rename_i s' univ'
      rw [List.nodup_cons] at hnd
      have hna : a ∉ s' := fun hc => hnd.1 (hsub.subset hc)
      rw [List.filter_cons]
      simp only [decide_eq_true_eq]
      rw [if_neg (by simpa using hna)]
      exact ih hnd.2
  | cons₂ a hsub ih =>
      rename_i s' univ'
      rw [List.nodup_cons] at hnd
      have hcond : (fun y => decide (y ∈ a :: s')) a = true :=
        decide_eq_true (List.mem_cons_self a s')
      have hcong : univ'.filter (fun y => decide (y ∈ a :: s')) =
          univ'.filter (fun y => decide (y ∈ s')) := by
        apply List.filter_congr
        intro y hy
        simp only [decide_eq_decide, List.mem_cons]
        constructor
        · rintro (rfl | h)
          · exact absurd hy hnd.1
          · exact h
        · exact Or.inr
      rw [List.filter_cons, if_pos hcond, hcong, ih hnd.2]

/-- What the modelled `Hitman.get` returns on satisfiable inputs: a
duplicate-free set hitting every registered clause, no strict subset of
which still hits every clause. -/
theorem hitman_get_spec (sets : List (List Nat)) (s : List Nat)
    (h : hitman_get sets = some s) :
    (∀ cl ∈ sets, ∃ l ∈ cl, l ∈ s) ∧ s.Nodup ∧
    (∀ t : List Nat, (∀ l ∈ t, l ∈ s) → (∀ cl ∈ sets, ∃ l ∈ cl, l ∈ t) →
      ∀ l ∈ s, l ∈ t) := by
  unfold hitman_get at h
  obtain ⟨hsub, hhits, _, hmin⟩ := min_hit_from_spec sets _ _ 0 s h
  have hndu : (sets.flatten.dedup).Nodup := List.nodup_dedup _
  have hnds : s.Nodup := hndu.sublist hsub
  refine ⟨(hits_all_iff _ _).mp hhits, hnds, ?_⟩
  intro t hts hthits lx hlx
  by_contra hnot
  have hfs : (sets.flatten.dedup).filter (fun y => decide (y ∈ s)) = s :=
    filter_mem_eq_of_sublist s _ hsub hndu
  have hmono : List.Sublist
      ((sets.flatten.dedup).filter (fun y => decide (y ∈ t)))
      ((sets.flatten.dedup).filter (fun y => decide (y ∈ s))) := by
    apply List.monotone_filter_right
    intro a ha
    simp only [decide_eq_true_eq] at ha ⊢
    exact hts a ha
  have hlenle := hmono.length_le
  rw [hfs] at hlenle hmono
  have hlenlt : ((sets.flatten.dedup).filter
      (fun y => decide (y ∈ t))).length < s.length := by
    rcases Nat.lt_or_ge ((sets.flatten.dedup).filter
        (fun y => decide (y ∈ t))).length s.length with hlt | hge
    · exact hlt
    · exfalso
      have heq := hmono.eq_of_length (by omega)
      apply hnot
      have hlxf : lx ∈ (sets.flatten.dedup).filter
          (fun y => decide (y ∈ t)) := by
        rw [heq, ← hfs]
        rw [List.mem_filter]
        exact ⟨hsub.subset hlx, decide_eq_true hlx⟩
      rw [List.mem_filter] at hlxf
      exact of_decide_eq_true hlxf.2
  have hhitsf : hits_all ((sets.flatten.dedup).filter
      (fun y => decide (y ∈ t))) sets = true := by
    rw [hits_all_iff]
    intro cl hcl
    obtain ⟨l, hlcl, hlt⟩ := hthits cl hcl
    refine ⟨l, hlcl, ?_⟩
    rw [List.mem_filter]
    refine ⟨List.mem_dedup.mpr (List.mem_flatten.mpr ⟨cl, hcl, hlcl⟩),
      decide_eq_true hlt⟩
  have := hmin _ (Nat.zero_le _) hlenlt
    ((sets.flatten.dedup).filter (fun y => decide (y ∈ t)))
    (List.mem_sublistsLen.mpr ⟨List.filter_sublist _, rfl⟩)
  rw [this] at hhitsf
  cases hhitsf

/-- The modelled `Hitman.get` succeeds whenever every registered clause is
non-empty. -/
theorem hitman_get_isSome (sets : List (List Nat))
    (hne : ∀ cl ∈ sets, cl ≠ []) : (hitman_get sets).isSome := by
  unfold hitman_get
  apply min_hit_from_isSome
  refine ⟨(sets.flatten.dedup).length, Nat.zero_le _, by omega, ?_⟩
  rw [List.find?_isSome]
  refine ⟨sets.flatten.dedup, ?_, ?_⟩
  · rw [List.mem_sublistsLen]
    exact ⟨List.Sublist.refl _, rfl⟩
  · rw [hits_all_iff]
    intro cl hcl
    obtain ⟨l, hl⟩ := List.exists_mem_of_ne_nil cl (hne cl hcl)
    refine ⟨l, hl, ?_⟩
    rw [List.mem_dedup, List.mem_flatten]
    exact ⟨cl, hcl, hl⟩

/-- C1 (amended): when at least one rule matches and every matched
clause is non-empty (no zero-depth tree among the matched rules),
`explain_literals` returns a literal set that intersects every matched
clause, and no strict subset of it intersects them all. -/
theorem c1_axp_hits_and_minimal (st : Explainer) (x : Nat → Int) (c : Nat)
    (hne : st.satisfied_rules x c ≠ [])
    (hcl : ∀ i ∈ st.satisfied_rules x c, st.rule_clauses.getD i [] ≠ []) :
    ∃ s, st.explain_literals x c = some s ∧
      (∀ i ∈ st.satisfied_rules x c,
        ∃ l ∈ st.rule_clauses.getD i [], l ∈ s) ∧
      (∀ t : List Nat, (∀ l ∈ t, l ∈ s) →
        (∀ i ∈ st.satisfied_rules x c,
          ∃ l ∈ st.rule_clauses.getD i [], l ∈ t) →
        ∀ l ∈ s, l ∈ t) := by
  have hsetsne : ∀ cl ∈ (st.satisfied_rules x c).map
      (fun i => st.rule_clauses.getD i []), cl ≠ [] := by
    intro cl hclm
    rw [List.mem_map] at hclm
    obtain ⟨i, hi, rfl⟩ := hclm
    exact hcl i hi
  obtain ⟨s, hs⟩ :=
    Option.isSome_iff_exists.mp (hitman_get_isSome _ hsetsne)
  obtain ⟨hhits, _, hmin⟩ := hitman_get_spec _ s hs
  refine ⟨s, ?_, ?_, ?_⟩
  · unfold Explainer.explain_literals
    rw [if_neg hne]
    unfold Explainer.compute_axp
    exact hs
  · intro i hi
    exact hhits (st.rule_clauses.getD i []) (List.mem_map_of_mem _ hi)
  · intro t hts hthits
    apply hmin t hts
    intro cl hclm
    rw [List.mem_map] at hclm
    obtain ⟨i, hi, rfl⟩ := hclm
    exact hthits i hi

/-- Witness for C1 on the concrete state: the all-sevens instance matches
rule `1` of `stA` for class `1`, whose singleton clause forces the AXP. -/
theorem c1_axp_hits_and_minimal_witness :
    ∃ s, stA.explain_literals x7 1 = some s ∧
      (∀ i ∈ stA.satisfied_rules x7 1,
        ∃ l ∈ stA.rule_clauses.getD i [], l ∈ s) ∧
      (∀ t : List Nat, (∀ l ∈ t, l ∈ s) →
        (∀ i ∈ stA.satisfied_rules x7 1,
          ∃ l ∈ stA.rule_clauses.getD i [], l ∈ t) →
        ∀ l ∈ s, l ∈ t) :=
  c1_axp_hits_and_minimal stA x7 1 (by decide) (by decide)

/-- Counterexample for C1 as stated: the zero-depth tree of `modelLeaf`
yields a matched rule whose clause is empty, which no returned literal
set can intersect — so the hitting-set property fails even though at
least one rule is matched. -/
theorem c1_empty_clause_cex :
    Explainer.init.fit_from_model_json modelLeaf = .ok stLeaf ∧
    stLeaf.satisfied_rules x3 1 ≠ [] ∧
    ¬ ∃ s, stLeaf.explain_literals x3 1 = some s ∧
      ∀ i ∈ stLeaf.satisfied_rules x3 1,
        ∃ l ∈ stLeaf.rule_clauses.getD i [], l ∈ s := by
  refine ⟨rfl, by decide, ?_⟩
  rintro ⟨s, _, hhit⟩
  have h0 : 0 ∈ stLeaf.satisfied_rules x3 1 := by decide
  obtain ⟨l, hl, _⟩ := hhit 0 h0
  have hnil : stLeaf.rule_clauses.getD 0 [] = ([] : List Nat) := rfl
  rw [hnil] at hl
  exact absurd hl (List.not_mem_nil l)

/-- Membership after a conditional append. -/
theorem mem_insert_new {α : Type} [DecidableEq α] (acc : List α) (a b : α) :
    a ∈ insert_new acc b ↔ a ∈ acc ∨ a = b := by
  unfold insert_new
  by_cases hb : b ∈ acc
  · rw [if_pos hb]
    constructor
    · exact Or.inl
    · rintro (h | rfl)
      · exact h
      · exact hb
  · rw [if_neg hb]
    simp

/-- A conditional append preserves distinctness. -/
theorem nodup_insert_new {α : Type} [DecidableEq α] (acc : List α) (b : α)
    (h : acc.Nodup) : (insert_new acc b).Nodup := by
  unfold insert_new
  by_cases hb : b ∈ acc
  · rw [if_pos hb]
    exact h
  · rw [if_neg hb]
    simp [List.nodup_append, h, hb]

/-- Membership in a fold of conditional appends. -/
theorem mem_foldl_insert_new {α : Type} [DecidableEq α] (l : List α) :
    ∀ (acc : List α) (a : α),
    a ∈ l.foldl insert_new acc ↔ a ∈ acc ∨ a ∈ l := by
  induction l with
  | nil => intro acc a; simp
  | cons b rest ih =>
      intro acc a
      rw [List.foldl_cons, ih, mem_insert_new]
      simp only [List.mem_cons]
      tauto

/-- A fold of conditional appends preserves distinctness. -/
theorem nodup_foldl_insert_new {α : Type} [DecidableEq α] (l : List α) :
    ∀ acc : List α, acc.Nodup → (l.foldl insert_new acc).Nodup := by
  induction l with
  | nil => intro acc h; exact h
  | cons b rest ih =>
      intro acc h
      exact ih _ (nodup_insert_new acc b h)

/-- `first_dedup` keeps exactly the elements of the original list. -/
theorem mem_first_dedup {α : Type} [DecidableEq α] (l : List α) (a : α) :
    a ∈ first_dedup l ↔ a ∈ l := by
  unfold first_dedup
  rw [mem_foldl_insert_new]
  simp

/-- `first_dedup` produces a duplicate-free list. -/
theorem nodup_first_dedup {α : Type} [DecidableEq α] (l : List α) :
    (first_dedup l).Nodup :=
  nodup_foldl_insert_new l [] List.nodup_nil

/-- The unique features of instance `i`'s group are exactly the features
appearing in some record of instance `i`. -/
theorem mem_group_features_iff (axps : List (Nat × List String)) (i : Nat)
    (f : String) :
    f ∈ CatBoostSymbolicExplainer.group_features
        (i, (axps.filter (fun r => decide (r.1 = i))).map (·.2)) ↔
      ∃ r ∈ axps, r.1 = i ∧ ∃ cond ∈ r.2, feature_of cond = f := by
  unfold CatBoostSymbolicExplainer.group_features
  rw [mem_first_dedup, List.mem_flatten]
  constructor
  · rintro ⟨fl, hfl, hffl⟩
    rw [List.mem_map] at hfl
    obtain ⟨axp, haxp, rfl⟩ := hfl
    rw [List.mem_map] at haxp
    obtain ⟨r, hr, rfl⟩ := haxp
    rw [List.mem_filter] at hr
    rw [List.mem_map] at hffl
    obtain ⟨cond, hcond, rfl⟩ := hffl
    exact ⟨r, hr.1, of_decide_eq_true hr.2, cond, hcond, rfl⟩
  · rintro ⟨r, hr, hri, cond, hcond, rfl⟩
    refine ⟨r.2.map feature_of, ?_, List.mem_map_of_mem feature_of hcond⟩
    rw [List.mem_map]
    refine ⟨r.2, ?_, rfl⟩
    rw [List.mem_map]
    refine ⟨r, ?_, rfl⟩
    rw [List.mem_filter]
    exact ⟨hr, decide_eq_true hri⟩

/-- C8 (amended, symbolic aggregator): every metric row's coverage equals
the number of distinct instances in which the row's feature appears in at
least one explanation. -/
theorem c8_coverage_counts_distinct_instances
    (axps : List (Nat × List String))
    (m : CatBoostSymbolicExplainer.FeatureMetric)
    (hm : m ∈ CatBoostSymbolicExplainer.compute_feature_metrics axps) :
    m.coverage = distinct_instances_with axps m.feature := by
  simp only [CatBoostSymbolicExplainer.compute_feature_metrics,
    List.mem_map] at hm
  obtain ⟨f, hf, rfl⟩ := hm
  show CatBoostSymbolicExplainer.coverage_count
      (CatBoostSymbolicExplainer.instance_groups axps) f =
    distinct_instances_with axps f
  unfold CatBoostSymbolicExplainer.coverage_count distinct_instances_with
    CatBoostSymbolicExplainer.instance_groups
  rw [List.filter_map, List.map_map]
  have hid : ((·.1 : Nat × List (List String) → Nat) ∘ (fun i =>
      (i, (axps.filter (fun r => decide (r.1 = i))).map (·.2)))) = id := rfl
  rw [hid, List.map_id]
  have hnod1 : ((first_dedup (axps.map (·.1))).filter
      ((fun g => decide (f ∈ CatBoostSymbolicExplainer.group_features g)) ∘
        (fun i =>
          (i, (axps.filter (fun r => decide (r.1 = i))).map (·.2))))).Nodup :=
    (nodup_first_dedup _).filter _
  rw [List.dedup_eq_self.mpr hnod1]
  apply List.Perm.length_eq
  rw [List.perm_ext_iff_of_nodup hnod1 (List.nodup_dedup _)]
  intro i
  rw [List.mem_filter, mem_first_dedup, List.mem_dedup, List.mem_map,
    List.mem_map]
  constructor
  · rintro ⟨_, hq⟩
    simp only [Function.comp_apply] at hq
    obtain ⟨r, hr, hri, cond, hcond, hcf⟩ :=
      (mem_group_features_iff axps i f).mp (of_decide_eq_true hq)
    refine ⟨r, ?_, hri⟩
    rw [List.mem_filter, List.any_eq_true]
    exact ⟨hr, cond, hcond, decide_eq_true hcf⟩
  · rintro ⟨r, hr, hri⟩
    rw [List.mem_filter, List.any_eq_true] at hr
    obtain ⟨hra, cond, hcond, hcf⟩ := hr
    refine ⟨⟨r, hra, hri⟩, ?_⟩
    simp only [Function.comp_apply]
    apply decide_eq_true
    rw [mem_group_features_iff]
    exact ⟨r, hra, hri, cond, hcond, of_decide_eq_true hcf⟩

/-- Witness for C8 on the concrete collection `axpsW`: the first metric
row's coverage equals the distinct-instance count of its feature. -/
theorem c8_coverage_counts_distinct_instances_witness :
    ((CatBoostSymbolicExplainer.compute_feature_metrics axpsW).headD
        default).coverage =
      distinct_instances_with axpsW
        ((CatBoostSymbolicExplainer.compute_feature_metrics axpsW).headD
          default).feature :=
  c8_coverage_counts_distinct_instances axpsW _
    (headD_mem_of_ne_nil _ default (by decide))

/-- Counterexample for C8 as stated over both cited implementations: in
`CatBoostAXPExplainer._compute_feature_metrics`, coverage is the number
of distinct instances divided by the number of explanation records, so on
a collection with two records for one instance the coverage value `1/2`
is not the distinct-instance count `1`. -/
theorem c8_v1_coverage_is_fraction_cex :
    ¬ ∀ m ∈ CatBoostAXPExplainer.compute_feature_metrics axpsDup,
      m.2.2 = (distinct_instances_with axpsDup m.1 : ℚ) := by
  intro h
  have hne : CatBoostAXPExplainer.compute_feature_metrics axpsDup ≠ [] := by
    decide
  have hm := h _ (headD_mem_of_ne_nil _ ("", 0, 0) hne)
  have hcov : ((CatBoostAXPExplainer.compute_feature_metrics axpsDup).headD
      ("", 0, 0)).2.2 = ((1 : ℕ) : ℚ) / ((2 : ℕ) : ℚ) := rfl
  have hfeat : ((CatBoostAXPExplainer.compute_feature_metrics axpsDup).headD
      ("", 0, 0)).1 = "A" := rfl
  have hcount : distinct_instances_with axpsDup "A" = 1 := by decide
  rw [hcov, hfeat, hcount] at hm
  norm_num at hm

/-- Division distributes over a list sum of rationals. -/
theorem list_sum_div (l : List ℚ) (c : ℚ) :
    (l.map (· / c)).sum = l.sum / c := by
  induction l with
  | nil => simp
  | cons a rest ih => rw [List.map_cons, List.sum_cons, List.sum_cons, ih,
      div_add_div_same]

/-- A feature in the feature list is supported by at least one group. -/
theorem support_count_pos (axps : List (Nat × List String)) (f : String)
    (hf : f ∈ CatBoostSymbolicExplainer.features_list axps) :
    0 < CatBoostSymbolicExplainer.support_count
      (CatBoostSymbolicExplainer.instance_groups axps) f := by
  unfold CatBoostSymbolicExplainer.features_list at hf
  rw [mem_first_dedup, List.mem_flatten] at hf
  obtain ⟨gl, hgl, hfgl⟩ := hf
  rw [List.mem_map] at hgl
  obtain ⟨g, hg, rfl⟩ := hgl
  unfold CatBoostSymbolicExplainer.support_count
  rw [List.countP_pos_iff]
  exact ⟨g, hg, decide_eq_true hfgl⟩

/-- C9 (amended): when at least one explanation mentions a feature, every
relative importance is that feature's support over the total support, and
the relative importances sum to exactly `1` in rational arithmetic. -/
theorem c9_relative_importance_simplex (axps : List (Nat × List String))
    (hne : CatBoostSymbolicExplainer.features_list axps ≠ []) :
    ((CatBoostSymbolicExplainer.compute_feature_metrics axps).map
      (·.relative_importance)).sum = 1 ∧
    ∀ m ∈ CatBoostSymbolicExplainer.compute_feature_metrics axps,
      m.relative_importance =
        (m.support : ℚ) / (CatBoostSymbolicExplainer.total_support axps : ℚ) := by
  have htpos : 0 < CatBoostSymbolicExplainer.total_support axps := by
    obtain ⟨f0, hf0⟩ :=
      List.exists_mem_of_ne_nil _ hne
    have hs0 := support_count_pos axps f0 hf0
    unfold CatBoostSymbolicExplainer.total_support
    calc 0 < CatBoostSymbolicExplainer.support_count
          (CatBoostSymbolicExplainer.instance_groups axps) f0 := hs0
      _ ≤ _ := List.single_le_sum (fun x _ => Nat.zero_le x) _
          (List.mem_map_of_mem _ hf0)
  have htne : ((CatBoostSymbolicExplainer.total_support axps : ℕ) : ℚ) ≠ 0 :=
    Nat.cast_ne_zero.mpr (by omega)
  constructor
  · have hmaps : ((CatBoostSymbolicExplainer.compute_feature_metrics axps).map
        (·.relative_importance)) =
        (CatBoostSymbolicExplainer.features_list axps).map (fun f =>
          ((CatBoostSymbolicExplainer.support_count
              (CatBoostSymbolicExplainer.instance_groups axps) f : ℕ) : ℚ) /
            ((CatBoostSymbolicExplainer.total_support axps : ℕ) : ℚ)) := by
      unfold CatBoostSymbolicExplainer.compute_feature_metrics
      rw [List.map_map]
      rfl
    rw [hmaps]
    have hdiv : (CatBoostSymbolicExplainer.features_list axps).map (fun f =>
        ((CatBoostSymbolicExplainer.support_count
            (CatBoostSymbolicExplainer.instance_groups axps) f : ℕ) : ℚ) /
          ((CatBoostSymbolicExplainer.total_support axps : ℕ) : ℚ)) =
        ((CatBoostSymbolicExplainer.features_list axps).map (fun f =>
          ((CatBoostSymbolicExplainer.support_count
              (CatBoostSymbolicExplainer.instance_groups axps) f : ℕ) : ℚ))).map
          (· / ((CatBoostSymbolicExplainer.total_support axps : ℕ) : ℚ)) := by
      rw [List.map_map]
      rfl
    rw [hdiv, list_sum_div]
    have hcast : ((CatBoostSymbolicExplainer.features_list axps).map (fun f =>
        ((CatBoostSymbolicExplainer.support_count
            (CatBoostSymbolicExplainer.instance_groups axps) f : ℕ) : ℚ))).sum =
        ((CatBoostSymbolicExplainer.total_support axps : ℕ) : ℚ) := by
      unfold CatBoostSymbolicExplainer.total_support
      rw [Nat.cast_list_sum, List.map_map]
      rfl
    rw [hcast]
    exact div_self htne
  · intro m hm
    simp only [CatBoostSymbolicExplainer.compute_feature_metrics,
      List.mem_map] at hm
    obtain ⟨f, hf, rfl⟩ := hm
    rfl

/-- Witness for C9 on the concrete collection `axpsW`: the relative
importances sum to `1`. -/
theorem c9_relative_importance_simplex_witness :
    ((CatBoostSymbolicExplainer.compute_feature_metrics axpsW).map
      (·.relative_importance)).sum = 1 :=
  (c9_relative_importance_simplex axpsW (by decide)).1

/-- Counterexample for C9 as stated: `axpsEmpty` is a non-empty
collection of explanations (one record whose explanation is empty), yet
the metrics table is empty and the relative importances sum to `0`,
not `1`. -/
theorem c9_all_empty_explanations_cex :
    axpsEmpty ≠ [] ∧
    ((CatBoostSymbolicExplainer.compute_feature_metrics axpsEmpty).map
      (·.relative_importance)).sum ≠ 1 := by
  constructor
  · decide
  · have hmet : CatBoostSymbolicExplainer.compute_feature_metrics axpsEmpty =
        [] := rfl
    rw [hmet]
    simp

/-- A successful search in the first part of an appended list is a
successful search in the whole. -/
theorem find?_append_some {α : Type} (l1 l2 : List α) (p : α → Bool)
    (a : α) (h : l1.find? p = some a) : (l1 ++ l2).find? p = some a := by
  rw [List.find?_append, h]
  rfl

/-- A failed search in the first part of an appended list defers to the
second part. -/
theorem find?_append_none {α : Type} (l1 l2 : List α) (p : α → Bool)
    (h : l1.find? p = none) : (l1 ++ l2).find? p = l2.find? p := by
  rw [List.find?_append, h]
  rfl

/-- Searching a pair list with distinct keys for a stored key returns the
stored pair. -/
theorem find?_eq_some_of_mem_of_nodup {α β : Type} [DecidableEq α]
    (l : List (α × β)) (k : α) (v : β) (hnd : (l.map (·.1)).Nodup)
    (hmem : (k, v) ∈ l) :
    l.find? (fun q => decide (q.1 = k)) = some (k, v) := by
  induction l with
  | nil => cases hmem
  | cons p rest ih =>
      rw [List.map_cons, List.nodup_cons] at hnd
      rcases List.mem_cons.mp hmem with heq | hm
      · subst heq
        exact List.find?_cons_of_pos rest (by simp)
      · have hk : ¬ p.1 = k := fun he =>
          hnd.1 (he ▸ List.mem_map_of_mem (·.1) hm)
        rw [List.find?_cons_of_neg rest (by simp [hk])]
        exact ih hnd.2 hm

/-- A literal that resolves keeps resolving to the same condition as the
registry grows by appending. -/
theorem resolve_mono (st st' : Explainer) (lit : Nat) (c : Cond)
    (hext : ∃ tl, st'.id_condition_map = st.id_condition_map ++ tl)
    (h : st.resolve lit = some c) : st'.resolve lit = some c := by
  obtain ⟨tl, htl⟩ := hext
  unfold Explainer.resolve at h ⊢
  rw [htl]
  rw [Option.map_eq_some'] at h
  obtain ⟨q, hq, hq2⟩ := h
  rw [find?_append_some _ _ _ _ hq, Option.map_some', hq2]

/-- Interning one condition only appends to the id-to-condition map. -/
theorem get_condition_literal_idmap (st : Explainer) (key : Cond) :
    ∃ tl, (st.get_condition_literal key).1.id_condition_map =
      st.id_condition_map ++ tl := by
  unfold Explainer.get_condition_literal
  cases (st.condition_id_map.find? (fun p => decide (p.1 = key))).map (·.2) with
  | some lit => exact ⟨[], (List.append_nil _).symm⟩
  | none => exact ⟨[(st.id_gen, key)], rfl⟩

/-- Interning a condition list only appends to the id-to-condition map. -/
theorem intern_conditions_idmap (conds : List Cond) : ∀ st : Explainer,
    ∃ tl, (st.intern_conditions conds).1.id_condition_map =
      st.id_condition_map ++ tl := by
  induction conds with
  | nil => intro st; exact ⟨[], (List.append_nil _).symm⟩
  | cons c rest ih =>
      intro st
      simp only [Explainer.intern_conditions]
      obtain ⟨tl1, h1⟩ := get_condition_literal_idmap st c
      obtain ⟨tl2, h2⟩ := ih (st.get_condition_literal c).1
      exact ⟨tl1 ++ tl2, by rw [h2, h1, List.append_assoc]⟩

/-- Under the registry invariant, the literal returned for a condition
triple resolves back to that triple in the resulting state. -/
theorem get_condition_literal_resolve (st : Explainer) (key : Cond)
    (b : Nat) (h : RegistryInv st b) :
    (st.get_condition_literal key).1.resolve
      ((st.get_condition_literal key).2) = some key := by
  obtain ⟨hmaps, hids, hgen⟩ := h
  have hidkeys : st.id_condition_map.map (·.1) =
      st.condition_id_map.map (·.2) := by
    rw [hmaps, List.map_map]
    rfl
  unfold Explainer.get_condition_literal
  cases hfind : st.condition_id_map.find? (fun p => decide (p.1 = key)) with
  | some p =>
      simp only [Option.map_some']
      have hp1 : p.1 = key := by
        have hp := List.find?_some hfind
        simpa using hp
      have hpm := List.mem_of_find?_eq_some hfind
      have hkeysnd : (st.id_condition_map.map (·.1)).Nodup := by
        rw [hidkeys, hids]
        exact List.nodup_range' _ _ _ (by omega)
      have hment : (p.2, key) ∈ st.id_condition_map := by
        rw [hmaps, List.mem_map]
        exact ⟨p, hpm, by rw [hp1]⟩
      unfold Explainer.resolve
      rw [find?_eq_some_of_mem_of_nodup _ _ _ hkeysnd hment]
      rfl
  | none =>
      simp only [Option.map_none']
      unfold Explainer.resolve
      have hnone : st.id_condition_map.find?
          (fun q => decide (q.1 = st.id_gen)) = none := by
        rw [List.find?_eq_none]
        intro q hq
        simp only [decide_eq_true_eq]
        intro he
        have hqk : q.1 ∈ st.id_condition_map.map (·.1) :=
          List.mem_map_of_mem (·.1) hq
        rw [hidkeys, hids] at hqk
        have := List.mem_range'_1.mp hqk
        omega
      rw [find?_append_none _ _ _ hnone]
      rw [List.find?_cons_of_pos _ (by simp)]
      rfl

/-- Under the registry invariant, interning a condition list yields a
clause whose literals resolve, in order, to exactly those conditions. -/
theorem intern_conditions_resolve (conds : List Cond) : ∀ (st : Explainer)
    (b : Nat), RegistryInv st b →
    (st.intern_conditions conds).2.map
      (st.intern_conditions conds).1.resolve = conds.map some := by
  induction conds with
  | nil => intro st b _; rfl
  | cons c rest ih =>
      intro st b h
      obtain ⟨h1, _⟩ := get_condition_literal_registry st c b h
      simp only [Explainer.intern_conditions, List.map_cons,
        List.cons.injEq]
      constructor
      · apply resolve_mono _ _ _ _ (intern_conditions_idmap rest _)
        exact get_condition_literal_resolve st c b h
      · exact ih _ b h1

/-- A clause whose literals resolve to given conditions keeps doing so as
the registry grows. -/
theorem resolve_clause_persist (st st' : Explainer)
    (hext : ∃ tl, st'.id_condition_map = st.id_condition_map ++ tl) :
    ∀ (cl : List Nat) (cs : List Cond),
    cl.map st.resolve = cs.map some → cl.map st'.resolve = cs.map some := by
  intro cl
  induction cl with
  | nil =>
      intro cs h
      simpa using h
  | cons l rest ih =>
      intro cs h
      cases cs with
      | nil => simp at h
      | cons c cs' =>
          simp only [List.map_cons, List.cons.injEq] at h ⊢
          exact ⟨resolve_mono st st' l c hext h.1, ih cs' h.2⟩

/-- A clause list whose clauses resolve to given condition lists keeps
doing so as the registry grows. -/
theorem resolve_clauses_persist (st st' : Explainer)
    (hext : ∃ tl, st'.id_condition_map = st.id_condition_map ++ tl) :
    ∀ (ncl : List (List Nat)) (tgts : List (List Cond)),
    ncl.map (fun cl => cl.map st.resolve) =
      tgts.map (fun cs => cs.map some) →
    ncl.map (fun cl => cl.map st'.resolve) =
      tgts.map (fun cs => cs.map some) := by
  intro ncl
  induction ncl with
  | nil =>
      intro tgts h
      simpa using h
  | cons cl rest ih =>
      intro tgts h
      cases tgts with
      | nil => simp at h
      | cons cs tgts' =>
          simp only [List.map_cons, List.cons.injEq] at h ⊢
          exact ⟨resolve_clause_persist st st' hext cl cs h.1, ih tgts' h.2⟩

/-- The traversal preserves the registry invariant, only appends to the
id map, and appends exactly one clause per depth-first leaf whose
literals resolve, in order, to the split conditions on that leaf's
root-to-leaf path. -/
theorem traverse_new_clauses (node : NodeJson) : ∀ (st : Explainer)
    (path : List Nat) (conds : List Cond) (b : Nat), RegistryInv st b →
    RegistryInv (st.traverse_non_oblivious_tree node path conds) b ∧
    (∃ tl, (st.traverse_non_oblivious_tree node path conds).id_condition_map =
      st.id_condition_map ++ tl) ∧
    ∃ ncl, (st.traverse_non_oblivious_tree node path conds).rule_clauses =
        st.rule_clauses ++ ncl ∧
      ncl.map (fun cl => cl.map
          (st.traverse_non_oblivious_tree node path conds).resolve) =
        (leaf_cond_lists node conds).map (fun cs => cs.map some) := by
  induction node with
  | leaf v =>
      intro st path conds b h
      obtain ⟨h1, _⟩ := intern_conditions_registry conds st b h
      refine ⟨?_, ?_, ?_⟩
      · simp only [Explainer.traverse_non_oblivious_tree]
        exact h1
      · simp only [Explainer.traverse_non_oblivious_tree]
        obtain ⟨tl, htl⟩ := intern_conditions_idmap conds st
        exact ⟨tl, htl⟩
      · simp only [Explainer.traverse_non_oblivious_tree, leaf_cond_lists]
        refine ⟨[(st.intern_conditions conds).2], ?_, ?_⟩
        · show (st.intern_conditions conds).1.rule_clauses ++
            [(st.intern_conditions conds).2] =
            st.rule_clauses ++ [(st.intern_conditions conds).2]
          rw [(intern_conditions_rules conds st).1]
        · simp only [List.map_cons, List.map_nil]
          exact congrArg (fun a => [a]) (intern_conditions_resolve conds st b h)
  | split f border l r ihl ihr =>
      intro st path conds b h
      simp only [Explainer.traverse_non_oblivious_tree, leaf_cond_lists,
        List.map_append]
      obtain ⟨hL, hextL, nclL, hclL, hresL⟩ :=
        ihl st (path ++ [0]) (conds ++ [(f, border, 0)]) b h
      obtain ⟨hR, hextR, nclR, hclR, hresR⟩ :=
        ihr _ (path ++ [1]) (conds ++ [(f, border, 1)]) b hL
      refine ⟨hR, ?_, ?_⟩
      · obtain ⟨tl1, h1⟩ := hextL
        obtain ⟨tl2, h2⟩ := hextR
        exact ⟨tl1 ++ tl2, by rw [h2, h1, List.append_assoc]⟩
      · refine ⟨nclL ++ nclR, by rw [hclR, hclL, List.append_assoc], ?_⟩
        rw [List.map_append,
          resolve_clauses_persist _ _ hextR nclL _ hresL, hresR]

/-- Folding the traversal over the tree list emits, in depth-first order,
one clause per leaf whose literals resolve to that leaf's path
conditions. -/
theorem foldl_traverse_new_clauses (trees : List NodeJson) :
    ∀ (st : Explainer) (b : Nat), RegistryInv st b →
    RegistryInv (trees.foldl
      (fun s t => s.traverse_non_oblivious_tree t [] []) st) b ∧
    (∃ tl, (trees.foldl (fun s t => s.traverse_non_oblivious_tree t [] [])
        st).id_condition_map = st.id_condition_map ++ tl) ∧
    ∃ ncl, (trees.foldl (fun s t => s.traverse_non_oblivious_tree t [] [])
        st).rule_clauses = st.rule_clauses ++ ncl ∧
      ncl.map (fun cl => cl.map
          (trees.foldl (fun s t => s.traverse_non_oblivious_tree t [] [])
            st).resolve) =
        ((trees.map (fun t => leaf_cond_lists t [])).flatten).map
          (fun cs => cs.map some) := by
  induction trees with
  | nil =>
      intro st b h
      exact ⟨h, ⟨[], (List.append_nil _).symm⟩,
        ⟨[], (List.append_nil _).symm, rfl⟩⟩
  | cons t ts ih =>
      intro st b h
      simp only [List.foldl_cons, List.map_cons, List.flatten_cons,
        List.map_append]
      obtain ⟨hL, hextL, nclL, hclL, hresL⟩ :=
        traverse_new_clauses t st [] [] b h
      obtain ⟨hR, hextR, nclR, hclR, hresR⟩ :=
        ih (st.traverse_non_oblivious_tree t [] []) b hL
      refine ⟨hR, ?_, ?_⟩
      · obtain ⟨tl1, h1⟩ := hextL
        obtain ⟨tl2, h2⟩ := hextR
        exact ⟨tl1 ++ tl2, by rw [h2, h1, List.append_assoc]⟩
      · refine ⟨nclL ++ nclR, by rw [hclR, hclL, List.append_assoc], ?_⟩
        rw [List.map_append,
          resolve_clauses_persist _ _ hextR nclL _ hresL, hresR]

/-- C3: a successful parse emits exactly one rule per depth-first leaf:
the predictions are the signs of the leaf values in traversal order, each
clause is the list of literals interned for the split conditions on its
leaf's root-to-leaf path — its literals resolve, in order, to exactly
those condition triples — so each clause's length equals its leaf's
depth, the rule count is the total leaf count, and a clause can only be
empty when the ensemble contains a zero-depth (bare-leaf) tree. -/
theorem c3_one_rule_per_leaf (st0 : Explainer) (m : ModelJson)
    (trees : List NodeJson) (st : Explainer)
    (htrees : m.non_oblivious_trees = some trees)
    (hfit : st0.fit_from_model_json m = .ok st) :
    st.rule_predictions =
      ((trees.map leaf_vals).flatten).map (fun v => if v > 0 then 1 else 0) ∧
    st.rule_clauses.map (fun cl => cl.map st.resolve) =
      ((trees.map (fun t => leaf_cond_lists t [])).flatten).map
        (fun cs => cs.map some) ∧
    st.rule_clauses.map List.length = (trees.map leaf_depths).flatten ∧
    st.rule_clauses.length =
      (trees.map (fun t => (leaf_vals t).length)).sum ∧
    (∀ cl ∈ st.rule_clauses, cl = [] →
      ∃ tr ∈ trees, ∃ v, tr = NodeJson.leaf v) := by
  unfold Explainer.fit_from_model_json at hfit
  by_cases hob : m.has_oblivious_trees
  · simp [hob] at hfit
  · simp only [hob, Bool.false_eq_true, if_false, htrees] at hfit
    injection hfit with h
    subst h
    have hall := foldl_traverse_rules trees
      { st0 with
          rule_clauses := []
          rule_predictions := []
          condition_id_map := []
          id_condition_map := []
          feature_names := m.float_features }
    have hpreds := hall.1
    have hlens := hall.2
    simp only [List.nil_append, List.map_nil] at hpreds hlens
    have hinv0 : RegistryInv
        { st0 with
            rule_clauses := []
            rule_predictions := []
            condition_id_map := []
            id_condition_map := []
            feature_names := m.float_features } st0.id_gen :=
      ⟨rfl, rfl, rfl⟩
    obtain ⟨_, _, ncl, hncl, hres⟩ :=
      foldl_traverse_new_clauses trees _ st0.id_gen hinv0
    simp only [List.nil_append] at hncl
    refine ⟨hpreds, ?_, hlens, ?_, ?_⟩
    · rw [hncl]
      exact hres
    · have hcount := congrArg List.length hlens
      simp only [List.length_map, List.length_flatten] at hcount
      rw [hcount, List.map_map]
      apply congrArg
      apply List.map_congr_left
      intro t _
      exact leaf_depths_length t
    · intro cl hcl hnil
      have h0 : (0 : Nat) ∈ (trees.map leaf_depths).flatten := by
        rw [← hlens]
        have : (0 : Nat) = cl.length := by rw [hnil]; rfl
        rw [this]
        exact List.mem_map_of_mem List.length hcl
      rw [List.mem_flatten] at h0
      obtain ⟨dl, hdl, h0d⟩ := h0
      rw [List.mem_map] at hdl
      obtain ⟨tr, htr, rfl⟩ := hdl
      exact ⟨tr, htr, zero_mem_leaf_depths tr h0d⟩

/-- Witness for C3 on the concrete one-split model: the parsed state has
predictions `[0, 1]`, clauses whose literals resolve to the left and
right path conditions of `treeA`, clause lengths `[1, 1]`, two rules, and
no empty clause obligation. -/
theorem c3_one_rule_per_leaf_witness :
    stA.rule_predictions =
      ((([treeA].map leaf_vals).flatten).map
        (fun v => if v > 0 then 1 else 0)) ∧
    stA.rule_clauses.map (fun cl => cl.map stA.resolve) =
      (([treeA].map (fun t => leaf_cond_lists t [])).flatten).map
        (fun cs => cs.map some) ∧
    stA.rule_clauses.map List.length = ([treeA].map leaf_depths).flatten ∧
    stA.rule_clauses.length =
      (([treeA].map (fun t => (leaf_vals t).length)).sum) ∧
    (∀ cl ∈ stA.rule_clauses, cl = [] →
      ∃ tr ∈ [treeA], ∃ v, tr = NodeJson.leaf v) :=
  c3_one_rule_per_leaf Explainer.init modelA [treeA] stA rfl rfl
